import Mathlib

/-!
Verification development for the MVCC safe-time manager and the builtin
function dispatcher of this repository.

Part 1 models the MVCC safe-time manager.  The repository ships only the
test `src/yb/tablet/mvcc-test.cc` for this component; the manager itself
(`mvcc.h` / `mvcc.cc`) is not among the provided sources, so the manager is
modelled from the specification (sections 3, 4 and 8 of the spec).
Hybrid times are modelled as natural numbers (the spec describes them as a
totally ordered 64-bit value with `decrement` as the immediate predecessor);
the shared logical clock is folded into the manager state, reflecting the
test setup where the manager owns a reference to one logical clock.
The `MAX` sentinel used to disable lease capping is modelled by an
`Option`al lease horizon, `none` meaning `HybridTime::kMax`.

Part 2 embeds the builtin-function overload resolution of
`src/yb/util/bfyql/bfyql.cc` (`HasExactTypeSignature`,
`HasSimilarTypeSignature`, `HasCompatibleTypeSignature`, `FindMatch`,
`FindOpcodeByType`).
-/

/-- Modelled from the spec: the state of `MvccManager` (spec section 3)
together with the logical clock it borrows.  `pending` is the set of keys of
the pending-operation map (insertion order is irrelevant to the verified
properties), `last_replicated` starts at `MIN` (= 0 in this model),
`max_already_issued` is the largest hybrid time ever placed in `pending`
(spec section 4.1), and `clock` is the value of the shared logical clock. -/
structure MvccManager where
  pending : List Nat
  last_replicated : Nat
  max_already_issued : Nat
  clock : Nat
deriving DecidableEq, Repr

/-- Modelled from the spec: a freshly created manager with a clock starting
at the initial time; the pending set is empty and `last_replicated` is
`MIN`. -/
def initManager : MvccManager :=
  { pending := [], last_replicated := 0, max_already_issued := 0, clock := 0 }

/-- Modelled from the spec: `Clock::now()` of the logical clock, strictly
increasing across calls; it returns the advanced value and the state with
the advanced clock. -/
def clock_now (st : MvccManager) : Nat × MvccManager :=
  (st.clock + 1, { st with clock := st.clock + 1 })

/-- Modelled from the spec: `Clock::update(t)` raises the clock if `t` is
newer, otherwise it is a no-op. -/
def clock_update (st : MvccManager) (t : Nat) : MvccManager :=
  { st with clock := max st.clock t }

/-- Minimum of the pending set (the key of `pending.begin()` of the ordered
map); `none` when the set is empty. -/
def minPending : List Nat → Option Nat
  | [] => none
  | x :: xs =>
    match minPending xs with
    | none => some x
    | some m => some (min x m)

/-- Modelled from the spec: the leader path of `add_pending` (spec
section 4.1, unset slot).  The manager assigns
`ht := max(clock.now(), last_replicated + 1, max_already_issued + 1)`,
calls `clock.update(ht)`, and inserts `ht` into `pending`. -/
def add_pending_leader (st : MvccManager) : Nat × MvccManager :=
  let p := clock_now st
  let ht := max p.1 (max (st.last_replicated + 1) (st.max_already_issued + 1))
  let st2 := clock_update p.2 ht
  (ht, { st2 with pending := ht :: st2.pending,
                  max_already_issued := max st2.max_already_issued ht })

/-- Modelled from the spec: the preset (follower / replay) path of
`add_pending` (spec section 4.1).  Asserts `ht > last_replicated`, rejects
duplicate insertion, and records the caller-supplied value; `none` models
the fatal `InvalidState` of spec section 7. -/
def add_pending_preset (st : MvccManager) (ht : Nat) : Option MvccManager :=
  if st.last_replicated < ht ∧ ht ∉ st.pending then
    some { st with pending := ht :: st.pending,
                   max_already_issued := max st.max_already_issued ht }
  else none

/-- Modelled from the spec: `replicated(ht)` (spec section 4.2).  Under the
lock it asserts `ht ∈ pending` and `ht > last_replicated`, removes the
entry and advances `last_replicated := ht`; `none` models the fatal
invariant violation of spec section 7. -/
def replicated (st : MvccManager) (ht : Nat) : Option MvccManager :=
  if ht ∈ st.pending ∧ st.last_replicated < ht then
    some { st with pending := st.pending.filter (fun p => p != ht),
                   last_replicated := ht }
  else none

/-- Modelled from the spec: `aborted(ht)` (spec section 4.2).  Removes the
entry from `pending` (any entry, not only the front) and does not update
`last_replicated`; `none` models the fatal invariant violation on an
unknown `ht`. -/
def aborted (st : MvccManager) (ht : Nat) : Option MvccManager :=
  if ht ∈ st.pending then
    some { st with pending := st.pending.filter (fun p => p != ht) }
  else none

/-- Modelled from the spec: the leader-path safe-time computation (spec
section 4.3.1), evaluated at one quiescent point (in this sequential model
a wait that cannot be satisfied immediately is a timeout, returning
`none`).  `lease_horizon = none` models the sentinel `MAX` that disables
lease capping.
`raw = if pending is empty then max(clock.now(), last_replicated) else
min(pending).decrement()`; `candidate = min(raw, lease_horizon)`; the call
returns `candidate` when `candidate ≥ required` and the absent value
otherwise. -/
def safe_time (required : Nat) (lease_horizon : Option Nat) (st : MvccManager) :
    Option Nat × MvccManager :=
  match minPending st.pending with
  | some m =>
    let raw := m - 1
    let candidate :=
      match lease_horizon with
      | none => raw
      | some l => min raw l
    (if required ≤ candidate then some candidate else none, st)
  | none =>
    let p := clock_now st
    let raw := max p.1 st.last_replicated
    let candidate :=
      match lease_horizon with
      | none => raw
      | some l => min raw l
    (if required ≤ candidate then some candidate else none, p.2)

/-- Modelled from the spec: `last_replicated_hybrid_time()` (spec
section 4.3.4) returns `last_replicated` under the lock. -/
def last_replicated_hybrid_time (st : MvccManager) : Nat :=
  st.last_replicated

/-- An operation applied to the manager by the replication layer or by a
reader; this is the alphabet of the operation sequences quantified over by
the invariants of spec section 8. -/
inductive Op where
  | addPending (slot : Option Nat)
  | replicatedOp (ht : Nat)
  | abortedOp (ht : Nat)
  | safeTimeOp (required : Nat) (lease_horizon : Option Nat)
deriving DecidableEq, Repr

/-- One step of the manager: dispatches an operation to the modelled API.
`none` propagates a fatal invariant violation. -/
def step (st : MvccManager) : Op → Option MvccManager
  | .addPending none => some (add_pending_leader st).2
  | .addPending (some ht) => add_pending_preset st ht
  | .replicatedOp ht => replicated st ht
  | .abortedOp ht => aborted st ht
  | .safeTimeOp required lease => some (safe_time required lease st).2

/-- Execution of a sequence of operations; `none` when some step hits a
fatal invariant violation. -/
def execOps : MvccManager → List Op → Option MvccManager
  | st, [] => some st
  | st, op :: rest =>
    match step st op with
    | some st2 => execOps st2 rest
    | none => none

/-- A state reachable from the fresh manager by some legal operation
sequence. -/
def Reachable (st : MvccManager) : Prop :=
  ∃ ops, execOps initManager ops = some st

/-- The state abstraction controlling timestamp assignment: the leader path
of `add_pending` assigns exactly `leader_bound + 1`. -/
def leader_bound (st : MvccManager) : Nat :=
  max st.clock (max st.last_replicated st.max_already_issued)

/-- The invariant maintained across all reachable states: every pending
hybrid time is positive (so `decrement` is defined on it) and bounded by
`max_already_issued`. -/
def MvccInv (st : MvccManager) : Prop :=
  ∀ p ∈ st.pending, 1 ≤ p ∧ p ≤ st.max_already_issued

example : execOps initManager [Op.addPending none, Op.addPending none, Op.replicatedOp 2] =
    some { pending := [1], last_replicated := 2, max_already_issued := 2, clock := 2 } := by
  decide

example : (safe_time 0 none initManager).1 = some 1 := by decide

theorem minPending_eq_none_iff {l : List Nat} : minPending l = none ↔ l = [] := by
  cases l with
  | nil => simp [minPending]
  | cons x xs =>
    simp only [minPending]
    cases minPending xs <;> simp

theorem minPending_mem : ∀ {l : List Nat} {m : Nat}, minPending l = some m → m ∈ l := by
  intro l
  induction l with
  | nil => intro m h; simp [minPending] at h
  | cons x xs ih =>
    intro m h
    simp only [minPending] at h
    cases hxs : minPending xs with
    | none =>
      rw [hxs] at h
      injection h with h
      subst h
      exact List.mem_cons_self x xs
    | some m2 =>
      rw [hxs] at h
      injection h with h
      subst h
      rcases le_total x m2 with hle | hle
      · rw [min_eq_left hle]; exact List.mem_cons_self _ _
      · rw [min_eq_right hle]; exact List.mem_cons_of_mem _ (ih hxs)

theorem minPending_le : ∀ {l : List Nat} {m : Nat}, minPending l = some m →
    ∀ p ∈ l, m ≤ p := by
  intro l
  induction l with
  | nil => intro m h; simp [minPending] at h
  | cons x xs ih =>
    intro m h p hp
    simp only [minPending] at h
    cases hxs : minPending xs with
    | none =>
      rw [hxs] at h
      injection h with h
      subst h
      rcases List.mem_cons.mp hp with rfl | hmem
      · exact le_refl _
      · rw [minPending_eq_none_iff.mp hxs] at hmem
        cases hmem
    | some m2 =>
      rw [hxs] at h
      injection h with h
      subst h
      rcases List.mem_cons.mp hp with rfl | hmem
      · exact min_le_left _ _
      · exact le_trans (min_le_right _ _) (ih hxs p hmem)

theorem add_pending_leader_fst (st : MvccManager) :
    (add_pending_leader st).1 = leader_bound st + 1 := by
  simp only [add_pending_leader, clock_now, leader_bound]
  omega

theorem add_pending_leader_snd (st : MvccManager) :
    (add_pending_leader st).2 =
      { pending := (add_pending_leader st).1 :: st.pending,
        last_replicated := st.last_replicated,
        max_already_issued := max st.max_already_issued (add_pending_leader st).1,
        clock := max (st.clock + 1) (add_pending_leader st).1 } := by
  simp only [add_pending_leader, clock_now, clock_update]

theorem step_inv {st st2 : MvccManager} {op : Op} (hInv : MvccInv st)
    (h : step st op = some st2) : MvccInv st2 := by
  cases op with
  | addPending slot =>
    cases slot with
    | none =>
      simp only [step, Option.some.injEq] at h
      subst h
      intro p hp
      rw [add_pending_leader_snd] at hp ⊢
      simp only [List.mem_cons] at hp
      rcases hp with rfl | hmem
      · rw [add_pending_leader_fst]
        simp only [leader_bound]
        omega
      · rcases hInv p hmem with ⟨h1, h2⟩
        simp only
        omega
    | some ht =>
      simp only [step, add_pending_preset] at h
      split at h
      · rename_i hcond
        injection h with h
        subst h
        intro p hp
        simp only [List.mem_cons] at hp
        rcases hp with rfl | hmem
        · simp only
          omega
        · rcases hInv p hmem with ⟨h1, h2⟩
          simp only
          omega
      · cases h
  | replicatedOp ht =>
    simp only [step, replicated] at h
    split at h
    · injection h with h
      subst h
      intro p hp
      simp only [List.mem_filter] at hp
      exact hInv p hp.1
    · cases h
  | abortedOp ht =>
    simp only [step, aborted] at h
    split at h
    · injection h with h
      subst h
      intro p hp
      simp only [List.mem_filter] at hp
      exact hInv p hp.1
    · cases h
  | safeTimeOp required lease =>
    simp only [step, Option.some.injEq] at h
    subst h
    unfold safe_time
    cases hm : minPending st.pending with
    | some m =>
      simpa using hInv
    | none =>
      simp only [clock_now]
      intro p hp
      exact hInv p hp

theorem execOps_inv : ∀ {ops : List Op} {st st2 : MvccManager}, MvccInv st →
    execOps st ops = some st2 → MvccInv st2 := by
  intro ops
  induction ops with
  | nil =>
    intro st st2 hInv h
    simp only [execOps, Option.some.injEq] at h
    subst h
    exact hInv
  | cons op rest ih =>
    intro st st2 hInv h
    simp only [execOps] at h
    cases hstep : step st op with
    | none => rw [hstep] at h; cases h
    | some st1 =>
      rw [hstep] at h
      exact ih (step_inv hInv hstep) h

theorem initManager_inv : MvccInv initManager := by
  intro p hp
  cases hp

theorem reachable_inv {st : MvccManager} (h : Reachable st) : MvccInv st := by
  rcases h with ⟨ops, hops⟩
  exact execOps_inv initManager_inv hops

theorem safe_time_snd_fields (required : Nat) (lease : Option Nat) (st : MvccManager) :
    (safe_time required lease st).2.pending = st.pending ∧
    (safe_time required lease st).2.last_replicated = st.last_replicated ∧
    (safe_time required lease st).2.max_already_issued = st.max_already_issued ∧
    st.clock ≤ (safe_time required lease st).2.clock := by
  unfold safe_time
  cases hm : minPending st.pending with
  | some m => simp
  | none => simp [clock_now]

theorem step_leader_bound_mono {st st2 : MvccManager} {op : Op}
    (h : step st op = some st2) : leader_bound st ≤ leader_bound st2 := by
  cases op with
  | addPending slot =>
    cases slot with
    | none =>
      simp only [step, Option.some.injEq] at h
      subst h
      rw [add_pending_leader_snd]
      simp only [leader_bound]
      omega
    | some ht =>
      simp only [step, add_pending_preset] at h
      split at h
      · injection h with h
        subst h
        simp only [leader_bound]
        omega
      · cases h
  | replicatedOp ht =>
    simp only [step, replicated] at h
    split at h
    · rename_i hcond
      injection h with h
      subst h
      simp only [leader_bound]
      omega
    · cases h
  | abortedOp ht =>
    simp only [step, aborted] at h
    split at h
    · injection h with h
      subst h
      simp only [leader_bound]
      omega
    · cases h
  | safeTimeOp required lease =>
    simp only [step, Option.some.injEq] at h
    subst h
    rcases safe_time_snd_fields required lease st with ⟨h1, h2, h3, h4⟩
    simp only [leader_bound, h1, h2, h3]
    omega

theorem step_last_replicated_mono {st st2 : MvccManager} {op : Op}
    (h : step st op = some st2) : st.last_replicated ≤ st2.last_replicated := by
  cases op with
  | addPending slot =>
    cases slot with
    | none =>
      simp only [step, Option.some.injEq] at h
      subst h
      rw [add_pending_leader_snd]
    | some ht =>
      simp only [step, add_pending_preset] at h
      split at h
      · injection h with h
        subst h
        simp only [le_refl]
      · cases h
  | replicatedOp ht =>
    simp only [step, replicated] at h
    split at h
    · rename_i hcond
      injection h with h
      subst h
      exact le_of_lt hcond.2
    · cases h
  | abortedOp ht =>
    simp only [step, aborted] at h
    split at h
    · injection h with h
      subst h
      simp only [le_refl]
    · cases h
  | safeTimeOp required lease =>
    simp only [step, Option.some.injEq] at h
    subst h
    exact le_of_eq (safe_time_snd_fields required lease st).2.1.symm

theorem execOps_leader_bound_mono : ∀ {ops : List Op} {st st2 : MvccManager},
    execOps st ops = some st2 → leader_bound st ≤ leader_bound st2 := by
  intro ops
  induction ops with
  | nil =>
    intro st st2 h
    simp only [execOps, Option.some.injEq] at h
    subst h
    exact le_refl _
  | cons op rest ih =>
    intro st st2 h
    simp only [execOps] at h
    cases hstep : step st op with
    | none => rw [hstep] at h; cases h
    | some st1 =>
      rw [hstep] at h
      exact le_trans (step_leader_bound_mono hstep) (ih h)

theorem execOps_last_replicated_mono : ∀ {ops : List Op} {st st2 : MvccManager},
    execOps st ops = some st2 → st.last_replicated ≤ st2.last_replicated := by
  intro ops
  induction ops with
  | nil =>
    intro st st2 h
    simp only [execOps, Option.some.injEq] at h
    subst h
    exact le_refl _
  | cons op rest ih =>
    intro st st2 h
    simp only [execOps] at h
    cases hstep : step st op with
    | none => rw [hstep] at h; cases h
    | some st1 =>
      rw [hstep] at h
      exact le_trans (step_last_replicated_mono hstep) (ih h)

theorem safe_time_le_leader_bound {st : MvccManager} (hInv : MvccInv st)
    {required s : Nat} {lease : Option Nat} {st1 : MvccManager}
    (h : safe_time required lease st = (some s, st1)) : s ≤ leader_bound st1 := by
  unfold safe_time at h
  cases hm : minPending st.pending with
  | some m =>
    rw [hm] at h
    have hfst := congrArg Prod.fst h
    have hsnd := congrArg Prod.snd h
    simp only at hfst hsnd
    subst hsnd
    have hmle : m ≤ st.max_already_issued := (hInv m (minPending_mem hm)).2
    have hs : s ≤ m - 1 := by
      cases lease with
      | none =>
        simp only at hfst
        split at hfst
        · injection hfst with hfst
          omega
        · cases hfst
      | some l =>
        simp only at hfst
        split at hfst
        · injection hfst with hfst
          have := min_le_left (m - 1) l
          omega
        · cases hfst
    simp only [leader_bound]
    omega
  | none =>
    rw [hm] at h
    have hfst := congrArg Prod.fst h
    have hsnd := congrArg Prod.snd h
    simp only [clock_now] at hfst hsnd
    have hclock : st1.clock = st.clock + 1 := by rw [← hsnd]
    have hlast : st1.last_replicated = st.last_replicated := by rw [← hsnd]
    have hs : s ≤ max (st.clock + 1) st.last_replicated := by
      cases lease with
      | none =>
        simp only at hfst
        split at hfst
        · injection hfst with hfst
          omega
        · cases hfst
      | some l =>
        simp only at hfst
        split at hfst
        · injection hfst with hfst
          have := min_le_left (max (st.clock + 1) st.last_replicated) l
          omega
        · cases hfst
    simp only [leader_bound]
    omega

theorem minPending_spec {l : List Nat} {m : Nat} (hmem : m ∈ l) (hle : ∀ p ∈ l, m ≤ p) :
    minPending l = some m := by
  cases hmp : minPending l with
  | none =>
    rw [minPending_eq_none_iff] at hmp
    subst hmp
    cases hmem
  | some m2 =>
    have h1 := minPending_le hmp m hmem
    have h2 := hle m2 (minPending_mem hmp)
    have : m2 = m := le_antisymm h1 h2
    rw [this]

theorem minPending_of_ne_nil {l : List Nat} (h : l ≠ []) : ∃ m, minPending l = some m := by
  cases hmp : minPending l with
  | none => exact absurd (minPending_eq_none_iff.mp hmp) h
  | some m => exact ⟨m, rfl⟩

theorem safe_time_fst_of_min {st : MvccManager} {m : Nat}
    (hm : minPending st.pending = some m) :
    (safe_time 0 none st).1 = some (m - 1) := by
  unfold safe_time
  rw [hm]
  simp

/-- C1: every value returned by a leader-path `safe_time` call with the
lease horizon disabled (`MAX`) is strictly less than the hybrid time that
any later leader-path `add_pending` call assigns. -/
theorem safe_time_lt_later_assigned
    {ops : List Op} {st : MvccManager} (hreach : execOps initManager ops = some st)
    {required s : Nat} {st1 : MvccManager}
    (hsafe : safe_time required none st = (some s, st1))
    {ops2 : List Op} {st2 : MvccManager} (hlater : execOps st1 ops2 = some st2) :
    s < (add_pending_leader st2).1 := by
  have hInv := execOps_inv initManager_inv hreach
  have h1 : s ≤ leader_bound st1 := safe_time_le_leader_bound hInv hsafe
  have h2 : leader_bound st1 ≤ leader_bound st2 := execOps_leader_bound_mono hlater
  rw [add_pending_leader_fst]
  omega

/-- Witness for C1 at a concrete execution: the fresh manager returns safe
time 1 and the next assigned timestamp is larger. -/
theorem safe_time_lt_later_assigned_witness :
    1 < (add_pending_leader
      { pending := [], last_replicated := 0, max_already_issued := 0, clock := 1 }).1 :=
  safe_time_lt_later_assigned
    (show execOps initManager [] = some initManager by rfl)
    (show safe_time 0 none initManager =
      (some 1, { pending := [], last_replicated := 0, max_already_issued := 0, clock := 1 })
      by decide)
    (show execOps { pending := [], last_replicated := 0, max_already_issued := 0, clock := 1 } []
      = some { pending := [], last_replicated := 0, max_already_issued := 0, clock := 1 } by rfl)

/-- C2: when the pending set is non-empty, a leader-path `safe_time` call
with the lease horizon disabled returns the immediate predecessor of the
minimum pending timestamp. -/
theorem safe_time_nonempty_eq_min_decrement
    {st : MvccManager} (hne : st.pending ≠ [])
    {required s : Nat} {st1 : MvccManager}
    (h : safe_time required none st = (some s, st1)) :
    ∃ m, minPending st.pending = some m ∧ s = m - 1 := by
  cases hm : minPending st.pending with
  | none => exact absurd (minPending_eq_none_iff.mp hm) hne
  | some m =>
    refine ⟨m, rfl, ?_⟩
    unfold safe_time at h
    rw [hm] at h
    have hfst := congrArg Prod.fst h
    simp only at hfst
    split at hfst
    · injection hfst with hfst
      omega
    · cases hfst

/-- Witness for C2 at a concrete state with one pending operation. -/
theorem safe_time_nonempty_eq_min_decrement_witness :
    ∃ m, minPending
        ({ pending := [1], last_replicated := 0, max_already_issued := 1, clock := 1 } :
          MvccManager).pending = some m ∧ 0 = m - 1 :=
  safe_time_nonempty_eq_min_decrement (by decide)
    (show safe_time 0 none
        { pending := [1], last_replicated := 0, max_already_issued := 1, clock := 1 } =
      (some 0, { pending := [1], last_replicated := 0, max_already_issued := 1, clock := 1 })
      by decide)

/-- C3: the leader path of `add_pending` assigns
`ht = max(clock.now(), last_replicated + 1, max_already_issued + 1)`,
updates the clock with `ht`, and the assigned timestamp is strictly greater
than `last_replicated` and than every outstanding pending timestamp. -/
theorem add_pending_assigns_fresh_maximum
    {st : MvccManager} (hreach : Reachable st) :
    (add_pending_leader st).1 =
      max (st.clock + 1) (max (st.last_replicated + 1) (st.max_already_issued + 1)) ∧
    (add_pending_leader st).2.clock = max (st.clock + 1) (add_pending_leader st).1 ∧
    st.last_replicated < (add_pending_leader st).1 ∧
    (∀ p ∈ st.pending, p < (add_pending_leader st).1) := by
  have hInv := reachable_inv hreach
  refine ⟨rfl, ?_, ?_, ?_⟩
  · rw [add_pending_leader_snd]
  · rw [add_pending_leader_fst]
    simp only [leader_bound]
    omega
  · intro p hp
    rcases hInv p hp with ⟨h1, h2⟩
    rw [add_pending_leader_fst]
    simp only [leader_bound]
    omega

/-- Witness for C3 at the fresh manager. -/
theorem add_pending_assigns_fresh_maximum_witness :
    (add_pending_leader initManager).1 =
      max (initManager.clock + 1)
        (max (initManager.last_replicated + 1) (initManager.max_already_issued + 1)) ∧
    (add_pending_leader initManager).2.clock =
      max (initManager.clock + 1) (add_pending_leader initManager).1 ∧
    initManager.last_replicated < (add_pending_leader initManager).1 ∧
    (∀ p ∈ initManager.pending, p < (add_pending_leader initManager).1) :=
  add_pending_assigns_fresh_maximum ⟨[], rfl⟩

/-- C5: a leader-path `safe_time` call with lease horizon `L` never returns
a value above `L`. -/
theorem safe_time_le_lease_horizon
    {st st1 : MvccManager} {required l s : Nat}
    (h : safe_time required (some l) st = (some s, st1)) : s ≤ l := by
  unfold safe_time at h
  cases hm : minPending st.pending with
  | some m =>
    rw [hm] at h
    have hfst := congrArg Prod.fst h
    simp only at hfst
    split at hfst
    · injection hfst with hfst
      omega
    · cases hfst
  | none =>
    rw [hm] at h
    have hfst := congrArg Prod.fst h
    simp only [clock_now] at hfst
    split at hfst
    · injection hfst with hfst
      omega
    · cases hfst

/-- Witness for C5: a lease horizon of 0 caps the returned safe time. -/
theorem safe_time_le_lease_horizon_witness : (0 : Nat) ≤ 0 :=
  safe_time_le_lease_horizon
    (show safe_time 0 (some 0) initManager =
      (some 0, { pending := [], last_replicated := 0, max_already_issued := 0, clock := 1 })
      by decide)

/-- C6: a `replicated(ht)` call that passes its preconditions removes `ht`
from the pending set and advances `last_replicated` to `ht`, so
`last_replicated_hybrid_time()` returns `ht` afterwards; and across every
operation sequence `last_replicated` never decreases. -/
theorem replicated_advances_last_replicated :
    (∀ st ht st2, replicated st ht = some st2 →
      st2.last_replicated = ht ∧ last_replicated_hybrid_time st2 = ht ∧
      ht ∉ st2.pending) ∧
    (∀ st ops st2, execOps st ops = some st2 →
      st.last_replicated ≤ st2.last_replicated) := by
  constructor
  · intro st ht st2 h
    unfold replicated at h
    split at h
    · injection h with h
      subst h
      refine ⟨rfl, rfl, ?_⟩
      simp [List.mem_filter]
    · cases h
  · intro st ops st2 h
    exact execOps_last_replicated_mono h

/-- Witness for C6: replicating the single pending timestamp 1 sets
`last_replicated` to 1, and `last_replicated` is non-decreasing on the
empty sequence. -/
theorem replicated_advances_last_replicated_witness :
    (({ pending := [], last_replicated := 1, max_already_issued := 1, clock := 1 } :
        MvccManager).last_replicated = 1 ∧
      last_replicated_hybrid_time
        { pending := [], last_replicated := 1, max_already_issued := 1, clock := 1 } = 1 ∧
      1 ∉ ({ pending := [], last_replicated := 1, max_already_issued := 1, clock := 1 } :
        MvccManager).pending) ∧
    initManager.last_replicated ≤ initManager.last_replicated :=
  ⟨replicated_advances_last_replicated.1
      { pending := [1], last_replicated := 0, max_already_issued := 1, clock := 1 } 1
      { pending := [], last_replicated := 1, max_already_issued := 1, clock := 1 }
      (by decide),
    replicated_advances_last_replicated.2 initManager [] initManager (by decide)⟩

/-- C7: an `aborted(ht)` call on a pending `ht` removes it and leaves
`last_replicated` unchanged; aborting a non-minimum entry leaves the safe
time unchanged, aborting the minimum (with other entries remaining)
strictly advances it. -/
theorem aborted_frame_and_safe_time_effect
    {st : MvccManager} (hreach : Reachable st) {ht : Nat} (hmem : ht ∈ st.pending) :
    ∃ st2, aborted st ht = some st2 ∧
      st2.last_replicated = st.last_replicated ∧
      ht ∉ st2.pending ∧
      (∀ m, minPending st.pending = some m →
        (ht ≠ m → (safe_time 0 none st2).1 = (safe_time 0 none st).1) ∧
        (ht = m → st2.pending ≠ [] →
          ∃ s s2, (safe_time 0 none st).1 = some s ∧
            (safe_time 0 none st2).1 = some s2 ∧ s < s2)) := by
  have hInv := reachable_inv hreach
  refine ⟨{ st with pending := st.pending.filter (fun p => p != ht) }, ?_, rfl, ?_, ?_⟩
  · unfold aborted
    rw [if_pos hmem]
  · simp [List.mem_filter]
  · intro m hm
    constructor
    · intro hne
      have hmmem : m ∈ st.pending.filter (fun p => p != ht) := by
        rw [List.mem_filter]
        refine ⟨minPending_mem hm, ?_⟩
        simp [bne_iff_ne]
        omega
      have hmin2 : minPending (st.pending.filter (fun p => p != ht)) = some m := by
        apply minPending_spec hmmem
        intro p hp
        exact minPending_le hm p (List.mem_filter.mp hp).1
      rw [safe_time_fst_of_min hm]
      have : (safe_time 0 none
          { st with pending := st.pending.filter (fun p => p != ht) }).1 = some (m - 1) :=
        safe_time_fst_of_min hmin2
      rw [this]
    · intro heq hne2
      subst heq
      rcases minPending_of_ne_nil hne2 with ⟨m2, hm2⟩
      have hm2mem := minPending_mem hm2
      rw [List.mem_filter] at hm2mem
      have hm2ne : m2 ≠ ht := by
        have := hm2mem.2
        simpa [bne_iff_ne] using this
      have hm2ge : ht ≤ m2 := minPending_le hm m2 hm2mem.1
      have hpos : 1 ≤ ht := (hInv ht hmem).1
      refine ⟨ht - 1, m2 - 1, safe_time_fst_of_min hm, safe_time_fst_of_min hm2, ?_⟩
      omega

/-- Witness for C7: aborting the minimum of two pending operations
strictly advances the safe time. -/
theorem aborted_frame_and_safe_time_effect_witness :
    ∃ st2, aborted
        { pending := [2, 1], last_replicated := 0, max_already_issued := 2, clock := 2 } 1 =
        some st2 ∧
      st2.last_replicated =
        ({ pending := [2, 1], last_replicated := 0, max_already_issued := 2, clock := 2 } :
          MvccManager).last_replicated ∧
      1 ∉ st2.pending ∧
      (∀ m, minPending
          ({ pending := [2, 1], last_replicated := 0, max_already_issued := 2, clock := 2 } :
            MvccManager).pending = some m →
        (1 ≠ m → (safe_time 0 none st2).1 =
          (safe_time 0 none
            { pending := [2, 1], last_replicated := 0, max_already_issued := 2, clock := 2 }).1) ∧
        (1 = m → st2.pending ≠ [] →
          ∃ s s2, (safe_time 0 none
              { pending := [2, 1], last_replicated := 0, max_already_issued := 2,
                clock := 2 }).1 = some s ∧
            (safe_time 0 none st2).1 = some s2 ∧ s < s2)) :=
  aborted_frame_and_safe_time_effect
    ⟨[Op.addPending none, Op.addPending none], by decide⟩ (by decide)

/-- C8: a `safe_time(required, deadline, lease)` call either returns a
value at least `required`, or reports the absent value (timeout) and
leaves the manager state (pending set, `last_replicated`,
`max_already_issued`) unchanged. -/
theorem safe_time_ge_required_or_absent (st : MvccManager) (required : Nat)
    (lease : Option Nat) :
    (∀ s st1, safe_time required lease st = (some s, st1) → required ≤ s) ∧
    (∀ st1, safe_time required lease st = (none, st1) →
      st1.pending = st.pending ∧ st1.last_replicated = st.last_replicated ∧
      st1.max_already_issued = st.max_already_issued) := by
  constructor
  · intro s st1 h
    unfold safe_time at h
    cases hm : minPending st.pending with
    | some m =>
      rw [hm] at h
      have hfst := congrArg Prod.fst h
      simp only at hfst
      cases lease with
      | none =>
        split at hfst
        · rename_i hc
          injection hfst with hfst
          omega
        · cases hfst
      | some l =>
        split at hfst
        · rename_i hc
          injection hfst with hfst
          omega
        · cases hfst
    | none =>
      rw [hm] at h
      have hfst := congrArg Prod.fst h
      simp only [clock_now] at hfst
      cases lease with
      | none =>
        split at hfst
        · rename_i hc
          injection hfst with hfst
          omega
        · cases hfst
      | some l =>
        split at hfst
        · rename_i hc
          injection hfst with hfst
          omega
        · cases hfst
  · intro st1 h
    have hsnd := congrArg Prod.snd h
    simp only at hsnd
    rcases safe_time_snd_fields required lease st with ⟨h1, h2, h3, _⟩
    rw [hsnd] at h1 h2 h3
    exact ⟨h1, h2, h3⟩

/-- Witness for C8: on the fresh manager, a satisfiable request returns a
value at least `required`, and an unsatisfiable request reports the absent
value leaving the manager fields unchanged. -/
theorem safe_time_ge_required_or_absent_witness :
    (0 : Nat) ≤ 1 ∧
    (({ pending := [], last_replicated := 0, max_already_issued := 0, clock := 1 } :
        MvccManager).pending = initManager.pending ∧
      ({ pending := [], last_replicated := 0, max_already_issued := 0, clock := 1 } :
        MvccManager).last_replicated = initManager.last_replicated ∧
      ({ pending := [], last_replicated := 0, max_already_issued := 0, clock := 1 } :
        MvccManager).max_already_issued = initManager.max_already_issued) :=
  ⟨(safe_time_ge_required_or_absent initManager 0 none).1 1
      { pending := [], last_replicated := 0, max_already_issued := 0, clock := 1 } (by decide),
    (safe_time_ge_required_or_absent initManager 5 none).2
      { pending := [], last_replicated := 0, max_already_issued := 0, clock := 1 } (by decide)⟩

/-- Counterexample to C4 as stated: replicating a pending operation that is
not the minimum (which the spec's `replicated` permits) leaves a smaller
timestamp in `pending` below the advanced `last_replicated`. -/
theorem pending_gt_last_replicated_cex :
    execOps initManager [Op.addPending none, Op.addPending none, Op.replicatedOp 2] =
      some { pending := [1], last_replicated := 2, max_already_issued := 2, clock := 2 } ∧
    1 ∈ ({ pending := [1], last_replicated := 2, max_already_issued := 2, clock := 2 } :
      MvccManager).pending ∧
    ¬ ({ pending := [1], last_replicated := 2, max_already_issued := 2, clock := 2 } :
      MvccManager).last_replicated < 1 := by
  decide

/-- The FIFO-completion side condition: along the execution, every
`replicated` call targets the minimum of the pending set (the spec notes
that on the leader operations complete strictly in insertion order). -/
def fifoOk : MvccManager → List Op → Bool
  | _, [] => true
  | st, op :: rest =>
    (match op with
     | Op.replicatedOp ht => minPending st.pending == some ht
     | _ => true) &&
    (match step st op with
     | some st2 => fifoOk st2 rest
     | none => true)

theorem step_pending_gt {st st2 : MvccManager} {op : Op}
    (hpg : ∀ p ∈ st.pending, st.last_replicated < p)
    (hfifo : ∀ ht, op = Op.replicatedOp ht → minPending st.pending = some ht)
    (hstep : step st op = some st2) : ∀ p ∈ st2.pending, st2.last_replicated < p := by
  cases op with
  | addPending slot =>
    cases slot with
    | none =>
      simp only [step, Option.some.injEq] at hstep
      subst hstep
      intro p hp
      rw [add_pending_leader_snd] at hp ⊢
      simp only [List.mem_cons] at hp
      rcases hp with rfl | hmem
      · rw [add_pending_leader_fst]
        simp only [leader_bound]
        omega
      · exact hpg p hmem
    | some ht =>
      simp only [step, add_pending_preset] at hstep
      split at hstep
      · rename_i hcond
        injection hstep with hstep
        subst hstep
        intro p hp
        simp only [List.mem_cons] at hp
        rcases hp with rfl | hmem
        · exact hcond.1
        · exact hpg p hmem
      · cases hstep
  | replicatedOp ht =>
    simp only [step, replicated] at hstep
    split at hstep
    · rename_i hcond
      injection hstep with hstep
      subst hstep
      intro p hp
      rw [List.mem_filter] at hp
      have hmin := hfifo ht rfl
      have hle := minPending_le hmin p hp.1
      have hne : p ≠ ht := by
        have := hp.2
        simpa [bne_iff_ne] using this
      simp only
      omega
    · cases hstep
  | abortedOp ht =>
    simp only [step, aborted] at hstep
    split at hstep
    · injection hstep with hstep
      subst hstep
      intro p hp
      rw [List.mem_filter] at hp
      exact hpg p hp.1
    · cases hstep
  | safeTimeOp required lease =>
    simp only [step, Option.some.injEq] at hstep
    subst hstep
    rcases safe_time_snd_fields required lease st with ⟨h1, h2, _, _⟩
    rw [h1, h2]
    exact hpg

theorem execOps_fifo_pending_gt : ∀ {ops : List Op} {st st2 : MvccManager},
    (∀ p ∈ st.pending, st.last_replicated < p) →
    execOps st ops = some st2 → fifoOk st ops = true →
    ∀ p ∈ st2.pending, st2.last_replicated < p := by
  intro ops
  induction ops with
  | nil =>
    intro st st2 hpg hexec _
    simp only [execOps, Option.some.injEq] at hexec
    subst hexec
    exact hpg
  | cons op rest ih =>
    intro st st2 hpg hexec hfifo
    simp only [execOps] at hexec
    simp only [fifoOk] at hfifo
    cases hstep : step st op with
    | none => rw [hstep] at hexec; cases hexec
    | some st1 =>
      rw [hstep] at hexec hfifo
      rw [Bool.and_eq_true] at hfifo
      have hguard : ∀ ht, op = Op.replicatedOp ht → minPending st.pending = some ht := by
        intro ht hop
        subst hop
        have := hfifo.1
        simpa using this
      exact ih (step_pending_gt hpg hguard hstep) hexec hfifo.2

theorem fifoOk_append_left : ∀ {pre : List Op} {suf : List Op} {st st1 : MvccManager},
    fifoOk st (pre ++ suf) = true → execOps st pre = some st1 → fifoOk st pre = true := by
  intro pre
  induction pre with
  | nil => intro suf st st1 _ _; rfl
  | cons op rest ih =>
    intro suf st st1 hfifo hexec
    simp only [List.cons_append, fifoOk] at hfifo ⊢
    simp only [execOps] at hexec
    cases hstep : step st op with
    | none => rw [hstep] at hexec; cases hexec
    | some stm =>
      rw [hstep] at hexec hfifo
      rw [Bool.and_eq_true] at hfifo ⊢
      exact ⟨hfifo.1, ih hfifo.2 hexec⟩

/-- C4 (amended): for every operation sequence on the initially empty
manager in which each `replicated` call completes the minimum pending
operation (FIFO completion, as the leader does), at every quiescent point
every pending timestamp is strictly above `last_replicated`. -/
theorem pending_gt_last_replicated_of_fifo (pre suf : List Op)
    (hfifo : fifoOk initManager (pre ++ suf) = true)
    {st2 : MvccManager} (hexec : execOps initManager pre = some st2) :
    ∀ p ∈ st2.pending, st2.last_replicated < p := by
  have hpre : fifoOk initManager pre = true := fifoOk_append_left hfifo hexec
  have hpg : ∀ p ∈ initManager.pending, initManager.last_replicated < p := by
    intro p hp
    cases hp
  exact execOps_fifo_pending_gt hpg hexec hpre

/-- Witness for amended C4: one FIFO execution with a non-empty quiescent
pending set. -/
theorem pending_gt_last_replicated_of_fifo_witness :
    ({ pending := [1], last_replicated := 0, max_already_issued := 1, clock := 1 } :
      MvccManager).last_replicated < 1 :=
  pending_gt_last_replicated_of_fifo [Op.addPending none] [Op.replicatedOp 1] (by decide)
    (show execOps initManager [Op.addPending none] =
      some { pending := [1], last_replicated := 0, max_already_issued := 1, clock := 1 }
      by decide)
    1 (by decide)

/-- The YQL data type enum (`DataType` of the common protobuf, external to
the provided sources); only the `TYPEARGS` varargs sentinel is examined by
the overload-resolution code, every other enumerator is abstracted as
`other n`. -/
inductive DataType where
  | TYPEARGS
  | other (id : Nat)
deriving DecidableEq, Repr

/-- `IsCompatible(left, right)` of `bfyql.cc`: delegates to
`YQLType::IsImplicitlyConvertible`, which is external to the provided
sources and therefore passed in as a predicate. -/
def IsCompatible (isImplicitlyConvertible : DataType → DataType → Bool)
    (left right : DataType) : Bool :=
  isImplicitlyConvertible left right

/-- `HasExactTypeSignature` of `bfyql.cc`: the formal parameter list must
match the actual types exactly, except that a `TYPEARGS` formal matches all
remaining arguments. -/
def HasExactTypeSignature : List DataType → List DataType → Bool
  | [], actual_types => actual_types.isEmpty
  | DataType.TYPEARGS :: _, _ => true
  | _ :: _, [] => false
  | s :: ss, a :: aa => s == a && HasExactTypeSignature ss aa

/-- `HasSimilarTypeSignature` of `bfyql.cc`: like the exact check but the
per-parameter comparison is `YQLType::IsSimilar` (external, passed in). -/
def HasSimilarTypeSignature (isSimilar : DataType → DataType → Bool) :
    List DataType → List DataType → Bool
  | [], actual_types => actual_types.isEmpty
  | DataType.TYPEARGS :: _, _ => true
  | _ :: _, [] => false
  | s :: ss, a :: aa => isSimilar s a && HasSimilarTypeSignature isSimilar ss aa

/-- `HasCompatibleTypeSignature` of `bfyql.cc`: like the exact check but
the per-parameter comparison is convertibility (`IsCompatible`). -/
def HasCompatibleTypeSignature (isImplicitlyConvertible : DataType → DataType → Bool) :
    List DataType → List DataType → Bool
  | [], actual_types => actual_types.isEmpty
  | DataType.TYPEARGS :: _, _ => true
  | _ :: _, [] => false
  | s :: ss, a :: aa =>
    IsCompatible isImplicitlyConvertible s a &&
      HasCompatibleTypeSignature isImplicitlyConvertible ss aa

/-- `BFOperator` of `base_operator.h`: opcode, the previous opcode of the
overloading chain (`overloaded_opcode`, equal to `opcode` at the chain
end), the formal parameter types and return type of its declaration, and
the declaration itself (abstracted as an identifier). -/
structure BFOperator where
  opcode : Nat
  overloaded_opcode : Nat
  param_types : List DataType
  return_type : DataType
  op_decl : Nat
deriving DecidableEq, Repr

/-- The observable outcome of `FindMatch` / `FindOpcodeByType`: `Status::OK`
together with the outputs written through `found_opcode`, `found_decl` and
the in/out `return_type` pointer, or the `NotFound` / `InvalidArgument`
error status. -/
inductive BFStatus where
  | ok (opcode : Nat) (op_decl : Nat) (return_type : Option DataType)
  | notFound
  | invalidArgument
deriving DecidableEq, Repr

/-- Outcome of the overload-chain scan loop inside `FindMatch`. -/
inductive LoopResult where
  | finished (found : Option BFOperator)
  | tooMany
  | fuelOut
deriving DecidableEq, Repr

/-- The `while (true)` scan of `FindMatch` over the overloading chain
`max_opcode, overloaded_opcode(max_opcode), …` of `kBFOperators`.  The
chain is finite by construction of the operator table (each link's
`overloaded_opcode` is at most its own opcode); the `fuel` argument makes
that termination explicit and `fuelOut` is unreachable for
`fuel > max_opcode` (see `FindMatchLoop_eq_loopSpec`). -/
def FindMatchLoop (kBFOperators : Nat → BFOperator)
    (compare_signature : List DataType → List DataType → Bool)
    (actual_types : List DataType) :
    Nat → Nat → Option BFOperator → LoopResult
  | 0, _, _ => .fuelOut
  | fuel + 1, max_opcode, found =>
    let bf := kBFOperators max_opcode
    if compare_signature bf.param_types actual_types then
      if found.isSome then .tooMany
      else if bf.overloaded_opcode = max_opcode then .finished (some bf)
      else FindMatchLoop kBFOperators compare_signature actual_types fuel
        bf.overloaded_opcode (some bf)
    else
      if bf.overloaded_opcode = max_opcode then .finished found
      else FindMatchLoop kBFOperators compare_signature actual_types fuel
        bf.overloaded_opcode found

/-- `FindMatch` of `bfyql.cc`: scans the overloading chain for operators
whose signature satisfies `compare_signature`; more than one satisfying
operator is `InvalidArgument`, none is `NotFound`; on a unique match the
in/out `return_type` is resolved (`none` models the null pointer): an
unknown supplied type is replaced by the operator's return type, a known
incompatible one is `InvalidArgument`. -/
def FindMatch (kBFOperators : Nat → BFOperator)
    (compare_signature : List DataType → List DataType → Bool)
    (isUnknown : DataType → Bool)
    (isImplicitlyConvertible : DataType → DataType → Bool)
    (actual_types : List DataType) (max_opcode : Nat)
    (return_type : Option DataType) : BFStatus :=
  match FindMatchLoop kBFOperators compare_signature actual_types
      (max_opcode + 1) max_opcode none with
  | .fuelOut => .notFound
  | .tooMany => .invalidArgument
  | .finished none => .notFound
  | .finished (some op) =>
    match return_type with
    | none => .ok op.opcode op.op_decl none
    | some rt =>
      if isUnknown rt then .ok op.opcode op.op_decl (some op.return_type)
      else if IsCompatible isImplicitlyConvertible rt op.return_type then
        .ok op.opcode op.op_decl (some rt)
      else .invalidArgument

/-- `FindOpcodeByType` of `bfyql.cc`: looks up the head opcode of the
builtin's overload chain in `kBFYqlName2Opcode`, then tries an exact
signature match; for every builtin except the cast operator a `NotFound`
exact search is retried with similar-type matching and then with
compatible-type matching. -/
def FindOpcodeByType (kBFOperators : Nat → BFOperator)
    (isSimilar : DataType → DataType → Bool)
    (isImplicitlyConvertible : DataType → DataType → Bool)
    (isUnknown : DataType → Bool)
    (kBFYqlName2Opcode : String → Option Nat) (kCastFuncName : String)
    (yql_name : String) (actual_types : List DataType)
    (return_type : Option DataType) : BFStatus :=
  match kBFYqlName2Opcode yql_name with
  | none => .notFound
  | some max_opcode =>
    let s := FindMatch kBFOperators HasExactTypeSignature isUnknown
      isImplicitlyConvertible actual_types max_opcode return_type
    if yql_name ≠ kCastFuncName ∧ s = .notFound then
      let s2 := FindMatch kBFOperators (HasSimilarTypeSignature isSimilar) isUnknown
        isImplicitlyConvertible actual_types max_opcode return_type
      if s2 = .notFound then
        FindMatch kBFOperators (HasCompatibleTypeSignature isImplicitlyConvertible)
          isUnknown isImplicitlyConvertible actual_types max_opcode return_type
      else s2
    else s

/-- The overloading chain as a list, following `overloaded_opcode` links
until the self-link that terminates the chain. -/
def opChain (kBFOperators : Nat → BFOperator) : Nat → Nat → List BFOperator
  | 0, _ => []
  | fuel + 1, max_opcode =>
    let bf := kBFOperators max_opcode
    bf :: (if bf.overloaded_opcode = max_opcode then []
           else opChain kBFOperators fuel bf.overloaded_opcode)

/-- What the scan loop computes, as a function of the satisfying operators
in chain order and the accumulator. -/
def loopSpecResult : Option BFOperator → List BFOperator → LoopResult
  | some a, [] => .finished (some a)
  | some _, _ :: _ => .tooMany
  | none, [] => .finished none
  | none, [m] => .finished (some m)
  | none, _ :: _ :: _ => .tooMany

theorem FindMatchLoop_eq_loopSpec (kBFOperators : Nat → BFOperator)
    (compare_signature : List DataType → List DataType → Bool)
    (actual_types : List DataType)
    (hWf : ∀ i, (kBFOperators i).overloaded_opcode ≤ i) :
    ∀ fuel max_opcode acc, max_opcode < fuel →
      FindMatchLoop kBFOperators compare_signature actual_types fuel max_opcode acc =
        loopSpecResult acc ((opChain kBFOperators fuel max_opcode).filter
          (fun bf => compare_signature bf.param_types actual_types)) := by
  intro fuel
  induction fuel with
  | zero => intro oc acc h; exact absurd h (Nat.not_lt_zero oc)
  | succ f ih =>
    intro oc acc hlt
    by_cases hend : (kBFOperators oc).overloaded_opcode = oc
    · cases hcmp : compare_signature (kBFOperators oc).param_types actual_types with
      | true =>
        cases acc with
        | none => simp [FindMatchLoop, opChain, hend, hcmp, List.filter_cons, loopSpecResult]
        | some a => simp [FindMatchLoop, opChain, hend, hcmp, List.filter_cons, loopSpecResult]
      | false =>
        cases acc with
        | none => simp [FindMatchLoop, opChain, hend, hcmp, List.filter_cons, loopSpecResult]
        | some a => simp [FindMatchLoop, opChain, hend, hcmp, List.filter_cons, loopSpecResult]
    · have hnext : (kBFOperators oc).overloaded_opcode < f := by
        have := hWf oc
        omega
      cases hcmp : compare_signature (kBFOperators oc).param_types actual_types with
      | true =>
        cases acc with
        | none =>
          have hL : FindMatchLoop kBFOperators compare_signature actual_types (f + 1) oc none =
              FindMatchLoop kBFOperators compare_signature actual_types f
                (kBFOperators oc).overloaded_opcode (some (kBFOperators oc)) := by
            simp [FindMatchLoop, hcmp, hend]
          have hR : (opChain kBFOperators (f + 1) oc).filter
              (fun bf => compare_signature bf.param_types actual_types) =
              kBFOperators oc :: (opChain kBFOperators f
                (kBFOperators oc).overloaded_opcode).filter
                (fun bf => compare_signature bf.param_types actual_types) := by
            simp [opChain, hend, List.filter_cons, hcmp]
          rw [hL, ih _ _ hnext, hR]
          cases (opChain kBFOperators f (kBFOperators oc).overloaded_opcode).filter
              (fun bf => compare_signature bf.param_types actual_types) with
          | nil => simp [loopSpecResult]
          | cons b bs => simp [loopSpecResult]
        | some a =>
          have hL : FindMatchLoop kBFOperators compare_signature actual_types (f + 1) oc
              (some a) = .tooMany := by
            simp [FindMatchLoop, hcmp]
          have hR : (opChain kBFOperators (f + 1) oc).filter
              (fun bf => compare_signature bf.param_types actual_types) =
              kBFOperators oc :: (opChain kBFOperators f
                (kBFOperators oc).overloaded_opcode).filter
                (fun bf => compare_signature bf.param_types actual_types) := by
            simp [opChain, hend, List.filter_cons, hcmp]
          rw [hL, hR]
          simp [loopSpecResult]
      | false =>
        have hL : FindMatchLoop kBFOperators compare_signature actual_types (f + 1) oc acc =
            FindMatchLoop kBFOperators compare_signature actual_types f
              (kBFOperators oc).overloaded_opcode acc := by
          simp [FindMatchLoop, hcmp, hend]
        have hR : (opChain kBFOperators (f + 1) oc).filter
            (fun bf => compare_signature bf.param_types actual_types) =
            (opChain kBFOperators f (kBFOperators oc).overloaded_opcode).filter
              (fun bf => compare_signature bf.param_types actual_types) := by
          simp [opChain, hend, List.filter_cons, hcmp]
        rw [hL, ih _ _ hnext, hR]

theorem FindMatch_ok_exists_match
    {kBFOperators : Nat → BFOperator}
    {compare_signature : List DataType → List DataType → Bool}
    {isUnknown : DataType → Bool} {conv : DataType → DataType → Bool}
    {actual_types : List DataType} {max_opcode : Nat} {return_type : Option DataType}
    (hWf : ∀ i, (kBFOperators i).overloaded_opcode ≤ i)
    {oc d : Nat} {r : Option DataType}
    (h : FindMatch kBFOperators compare_signature isUnknown conv actual_types max_opcode
      return_type = .ok oc d r) :
    ∃ bf ∈ opChain kBFOperators (max_opcode + 1) max_opcode,
      compare_signature bf.param_types actual_types = true := by
  have hloop := FindMatchLoop_eq_loopSpec kBFOperators compare_signature actual_types hWf
    (max_opcode + 1) max_opcode none (Nat.lt_succ_self _)
  unfold FindMatch at h
  rw [hloop] at h
  cases hms : (opChain kBFOperators (max_opcode + 1) max_opcode).filter
      (fun bf => compare_signature bf.param_types actual_types) with
  | nil =>
    rw [hms] at h
    simp [loopSpecResult] at h
  | cons a rest =>
    cases rest with
    | nil =>
      have hmem : a ∈ (opChain kBFOperators (max_opcode + 1) max_opcode).filter
          (fun bf => compare_signature bf.param_types actual_types) := by
        rw [hms]
        exact List.mem_cons_self a []
      rw [List.mem_filter] at hmem
      exact ⟨a, hmem.1, hmem.2⟩
    | cons b rest2 =>
      rw [hms] at h
      simp [loopSpecResult] at h

/-- C10: `FindMatch` reports `InvalidArgument` when more than one operator
of the overload chain satisfies the signature predicate, `NotFound` when
none does, and on a unique match outputs that operator's opcode and
declaration, resolving a supplied `return_type`: an unknown one is set to
the operator's return type, a known incompatible one is
`InvalidArgument`. -/
theorem FindMatch_unique_match_characterization
    (kBFOperators : Nat → BFOperator)
    (compare_signature : List DataType → List DataType → Bool)
    (isUnknown : DataType → Bool) (conv : DataType → DataType → Bool)
    (actual_types : List DataType) (max_opcode : Nat) (return_type : Option DataType)
    (hWf : ∀ i, (kBFOperators i).overloaded_opcode ≤ i) :
    (2 ≤ ((opChain kBFOperators (max_opcode + 1) max_opcode).filter
        (fun bf => compare_signature bf.param_types actual_types)).length →
      FindMatch kBFOperators compare_signature isUnknown conv actual_types max_opcode
        return_type = .invalidArgument) ∧
    ((opChain kBFOperators (max_opcode + 1) max_opcode).filter
        (fun bf => compare_signature bf.param_types actual_types) = [] →
      FindMatch kBFOperators compare_signature isUnknown conv actual_types max_opcode
        return_type = .notFound) ∧
    (∀ op, (opChain kBFOperators (max_opcode + 1) max_opcode).filter
        (fun bf => compare_signature bf.param_types actual_types) = [op] →
      (return_type = none →
        FindMatch kBFOperators compare_signature isUnknown conv actual_types max_opcode
          return_type = .ok op.opcode op.op_decl none) ∧
      (∀ rt, return_type = some rt →
        (isUnknown rt = true →
          FindMatch kBFOperators compare_signature isUnknown conv actual_types max_opcode
            return_type = .ok op.opcode op.op_decl (some op.return_type)) ∧
        (isUnknown rt = false → IsCompatible conv rt op.return_type = true →
          FindMatch kBFOperators compare_signature isUnknown conv actual_types max_opcode
            return_type = .ok op.opcode op.op_decl (some rt)) ∧
        (isUnknown rt = false → IsCompatible conv rt op.return_type = false →
          FindMatch kBFOperators compare_signature isUnknown conv actual_types max_opcode
            return_type = .invalidArgument))) := by
  have hloop := FindMatchLoop_eq_loopSpec kBFOperators compare_signature actual_types hWf
    (max_opcode + 1) max_opcode none (Nat.lt_succ_self _)
  refine ⟨?_, ?_, ?_⟩
  · intro hlen
    unfold FindMatch
    rw [hloop]
    cases hms : (opChain kBFOperators (max_opcode + 1) max_opcode).filter
        (fun bf => compare_signature bf.param_types actual_types) with
    | nil => rw [hms] at hlen; simp at hlen
    | cons a rest =>
      cases rest with
      | nil => rw [hms] at hlen; simp at hlen
      | cons b rest2 => simp [loopSpecResult]
  · intro hms
    unfold FindMatch
    rw [hloop, hms]
    simp [loopSpecResult]
  · intro op hms
    constructor
    · intro hrt
      subst hrt
      unfold FindMatch
      rw [hloop, hms]
      simp [loopSpecResult]
    · intro rt hrt
      subst hrt
      refine ⟨?_, ?_, ?_⟩
      · intro hu
        unfold FindMatch
        rw [hloop, hms]
        simp [loopSpecResult, hu]
      · intro hu hc
        unfold FindMatch
        rw [hloop, hms]
        simp [loopSpecResult, hu, hc]
      · intro hu hc
        unfold FindMatch
        rw [hloop, hms]
        simp [loopSpecResult, hu, hc]

/-- A one-element operator table used to exercise the overload-resolution
theorems on concrete inputs. -/
def sampleOperators : Nat → BFOperator :=
  fun i => { opcode := i, overloaded_opcode := 0, param_types := [],
             return_type := DataType.other 0, op_decl := 5 }

/-- Witness for C10 on a one-element overload chain: the empty actual
argument list matches the empty formal list exactly and uniquely, and the
opcode and declaration of that operator are returned. -/
theorem FindMatch_unique_match_characterization_witness :
    FindMatch sampleOperators HasExactTypeSignature (fun _ => false) (fun _ _ => true)
      [] 0 none = BFStatus.ok 0 5 none :=
  ((FindMatch_unique_match_characterization sampleOperators HasExactTypeSignature
      (fun _ => false) (fun _ _ => true) [] 0 none
      (fun i => Nat.zero_le i)).2.2
    (sampleOperators 0) (by decide)).1 rfl

/-- C9: for the builtin named `kCastFuncName`, `FindOpcodeByType` is the
exact-signature search alone, so it can succeed only when some overload of
the chain matches the actual types exactly; for every other builtin name a
`NotFound` exact search is retried with similar-type matching and, if that
is also `NotFound`, with compatible-type matching. -/
theorem FindOpcodeByType_cast_exact_and_retry_order
    (kBFOperators : Nat → BFOperator)
    (isSimilar conv : DataType → DataType → Bool) (isUnknown : DataType → Bool)
    (kBFYqlName2Opcode : String → Option Nat) (kCastFuncName : String)
    (actual_types : List DataType) (return_type : Option DataType)
    (hWf : ∀ i, (kBFOperators i).overloaded_opcode ≤ i) :
    (∀ max_opcode, kBFYqlName2Opcode kCastFuncName = some max_opcode →
      FindOpcodeByType kBFOperators isSimilar conv isUnknown kBFYqlName2Opcode
          kCastFuncName kCastFuncName actual_types return_type =
        FindMatch kBFOperators HasExactTypeSignature isUnknown conv actual_types
          max_opcode return_type ∧
      (∀ oc d r,
        FindOpcodeByType kBFOperators isSimilar conv isUnknown kBFYqlName2Opcode
            kCastFuncName kCastFuncName actual_types return_type = .ok oc d r →
        ∃ bf ∈ opChain kBFOperators (max_opcode + 1) max_opcode,
          HasExactTypeSignature bf.param_types actual_types = true)) ∧
    (∀ yql_name max_opcode, yql_name ≠ kCastFuncName →
      kBFYqlName2Opcode yql_name = some max_opcode →
      FindOpcodeByType kBFOperators isSimilar conv isUnknown kBFYqlName2Opcode
          kCastFuncName yql_name actual_types return_type =
        (if FindMatch kBFOperators HasExactTypeSignature isUnknown conv actual_types
            max_opcode return_type = .notFound then
          (if FindMatch kBFOperators (HasSimilarTypeSignature isSimilar) isUnknown conv
              actual_types max_opcode return_type = .notFound then
            FindMatch kBFOperators (HasCompatibleTypeSignature conv) isUnknown conv
              actual_types max_opcode return_type
          else
            FindMatch kBFOperators (HasSimilarTypeSignature isSimilar) isUnknown conv
              actual_types max_opcode return_type)
        else
          FindMatch kBFOperators HasExactTypeSignature isUnknown conv actual_types
            max_opcode return_type)) := by
  constructor
  · intro max_opcode hcast
    have heq : FindOpcodeByType kBFOperators isSimilar conv isUnknown kBFYqlName2Opcode
        kCastFuncName kCastFuncName actual_types return_type =
        FindMatch kBFOperators HasExactTypeSignature isUnknown conv actual_types
          max_opcode return_type := by
      unfold FindOpcodeByType
      rw [hcast]
      simp
    refine ⟨heq, ?_⟩
    intro oc d r hok
    rw [heq] at hok
    exact FindMatch_ok_exists_match hWf hok
  · intro yql_name max_opcode hne hname
    by_cases hs : FindMatch kBFOperators HasExactTypeSignature isUnknown conv actual_types
        max_opcode return_type = .notFound
    · simp only [FindOpcodeByType, hname]
      rw [if_pos ⟨hne, hs⟩, if_pos hs]
    · simp only [FindOpcodeByType, hname]
      rw [if_neg (fun hc => hs hc.2), if_neg hs]

/-- Witness for C9: on a one-element table where the cast builtin resolves
to opcode 0, the cast lookup equals the exact search and its success
exhibits an exactly matching overload. -/
theorem FindOpcodeByType_cast_exact_and_retry_order_witness :
    FindOpcodeByType sampleOperators (fun _ _ => false) (fun _ _ => true) (fun _ => false)
        (fun _ => some 0) "cast" "cast" [] none =
      FindMatch sampleOperators HasExactTypeSignature (fun _ => false) (fun _ _ => true)
        [] 0 none ∧
    ∃ bf ∈ opChain sampleOperators 1 0, HasExactTypeSignature bf.param_types [] = true :=
  ⟨((FindOpcodeByType_cast_exact_and_retry_order sampleOperators (fun _ _ => false)
        (fun _ _ => true) (fun _ => false) (fun _ => some 0) "cast" [] none
        (fun i => Nat.zero_le i)).1 0 rfl).1,
    ((FindOpcodeByType_cast_exact_and_retry_order sampleOperators (fun _ _ => false)
        (fun _ _ => true) (fun _ => false) (fun _ => some 0) "cast" [] none
        (fun i => Nat.zero_le i)).1 0 rfl).2 0 5 none (by decide)⟩
